import Mathlib

/-!
Verification development for the Word-Frequency tracker.

The repository is a small single-page application: a tokenizer turns pasted
text into normalized words (src/components/WordInput.tsx), a word store keeps
per-word frequency rows in a remote table (src/lib/supabase.ts), and a
definition fetcher enriches a word with pronunciation, definitions and
examples from a public dictionary service (src/services/dictionaryApi.ts).

This file gives a shallow embedding of those parts: strings are Lean strings
over their character lists, the remote table is an explicit list of rows
threaded through the operations, timestamps are integer milliseconds (as
returned by JS getTime), and the network is an explicit outcome value fed to
the fetch logic.  Fallible operations return Option, mirroring the
try-or-null style of the source.
-/

namespace WordFreq

/-- JS whitespace test for the characters relevant here (the tokenizer splits
on the regex whitespace class; the ASCII whitespace characters are modelled). -/
def jsIsWhitespace (c : Char) : Bool :=
  c == ' ' || c == '\t' || c == '\n' || c == '\r' || c == '\x0b' || c == '\x0c'

/-- ASCII lowering of one character.  JS toLowerCase acts like this on ASCII
letters, which is all that survives the tokenizer's letter filter. -/
def jsToLowerChar (c : Char) : Char :=
  if 65 ≤ c.toNat ∧ c.toNat ≤ 90 then Char.ofNat (c.toNat + 32) else c

/-- String-level lowering, modelling `word.toLowerCase()`. -/
def jsToLower (s : String) : String :=
  String.mk (s.data.map jsToLowerChar)

/-- Is the character a lowercase Latin letter?  This is the character class
kept by the tokenizer's `replace` step (everything outside a-z is removed). -/
def isAsciiLower (c : Char) : Bool :=
  97 ≤ c.toNat && c.toNat ≤ 122

/-- Split a character list at every whitespace character, keeping the (possibly
empty) pieces between them.  JS `split` with a whitespace-run regex differs only
in that it merges consecutive separators; the pipeline's following
filter-out-empty step makes the two agree, which `claim4_tokenizer` checks by
comparing against `splitRuns` below. -/
def splitWsAux : List Char → List Char → List (List Char)
  | [], acc => [acc.reverse]
  | c :: cs, acc =>
    if jsIsWhitespace c then acc.reverse :: splitWsAux cs []
    else splitWsAux cs (c :: acc)

def splitWs (cs : List Char) : List (List Char) :=
  splitWsAux cs []

/-- The tokenizer of src/components/WordInput.tsx, stage for stage:
lowercase, split on whitespace, drop empties, strip non-letters, drop
empties again, drop single letters. -/
def tokenize (cs : List Char) : List (List Char) :=
  ((((splitWs (cs.map jsToLowerChar)).filter
        (fun w => decide (0 < w.length))).map
      (fun w => w.filter isAsciiLower)).filter
    (fun w => decide (0 < w.length))).filter
    (fun w => decide (2 ≤ w.length))

/-- The word list extracted from the text area input, as Lean strings. -/
def extractWords (inputText : String) : List String :=
  (tokenize inputText.data).map String.mk

/-- Split into maximal nonempty runs of non-whitespace characters.  Used only
to state the spec-side tokenizer `specTokenize`. -/
def splitRunsAux : List Char → List Char → List (List Char)
  | [], acc => if acc.isEmpty then [] else [acc.reverse]
  | c :: cs, acc =>
    if jsIsWhitespace c then
      if acc.isEmpty then splitRunsAux cs []
      else acc.reverse :: splitRunsAux cs []
    else splitRunsAux cs (c :: acc)

def splitRuns (cs : List Char) : List (List Char) :=
  splitRunsAux cs []

/-- The tokenizer as the spec words it, for comparison with `tokenize`:
"lowercase the text; split on whitespace runs; strip every character that is
not a lowercase Latin letter from each token; discard empty tokens; discard
tokens of length 1". -/
def specTokenize (cs : List Char) : List (List Char) :=
  (((splitRuns (cs.map jsToLowerChar)).map
      (fun w => w.filter isAsciiLower)).filter
    (fun w => !w.isEmpty)).filter
    (fun w => w.length != 1)

/-- Milliseconds-to-hours difference computed by `shouldUpdateWordDetails`
(timestamps are in milliseconds, as JS `getTime` returns). -/
def hoursSince (nowMs lastMs : ℤ) : ℚ :=
  ((nowMs : ℚ) - (lastMs : ℚ)) / (1000 * 60 * 60)

/-- Default for the `maxAgeHours` parameter of `shouldUpdateWordDetails`
(`24 * 7` in the source). -/
def defaultMaxAgeHours : ℚ := 24 * 7

/-- src/services/dictionaryApi.ts `shouldUpdateWordDetails`: no stored
timestamp means refresh; otherwise refresh when the elapsed hours exceed the
threshold.  (A JS empty-string timestamp is also falsy; the absent case
models it.) -/
def shouldUpdateWordDetails (lastFetchedAt : Option ℤ) (maxAgeHours : ℚ)
    (nowMs : ℤ) : Bool :=
  match lastFetchedAt with
  | none => true
  | some t => decide (hoursSince nowMs t > maxAgeHours)

/- ### Definition fetcher (src/services/dictionaryApi.ts) -/

/-- JS truthiness of an optional string field: absent and empty are falsy. -/
def jsTruthy (s : Option String) : Option String :=
  match s with
  | none => none
  | some t => if t = "" then none else some t

/-- One entry of the API's phonetics array. -/
structure Phonetic where
  text : Option String
  audio : Option String
deriving DecidableEq, Repr

/-- One definition inside a meaning group.  The source field holding the
example sentence is called `example`, a Lean keyword, hence `exampleText`. -/
structure ApiDefinition where
  definition : String
  exampleText : Option String
  synonyms : Option (List String)
  antonyms : Option (List String)
deriving DecidableEq, Repr

/-- One meaning group of the API response. -/
structure Meaning where
  partOfSpeech : String
  definitions : List ApiDefinition
deriving DecidableEq, Repr

/-- DictionaryApiResponse of src/services/dictionaryApi.ts. -/
structure DictionaryApiResponse where
  word : String
  phonetic : Option String
  phonetics : List Phonetic
  meanings : List Meaning
deriving DecidableEq, Repr

/-- PronunciationInfo of dictionaryApi.ts (the same shape is called
WordPronunciation in src/lib/supabase.ts). -/
structure PronunciationInfo where
  text : String
  audio : Option String
deriving DecidableEq, Repr

/-- WordDefinition of src/lib/supabase.ts: a part-of-speech tag plus the
definition text. -/
structure WordDefinition where
  partOfSpeech : String
  definition : String
deriving DecidableEq, Repr

/-- WordDetails of dictionaryApi.ts. -/
structure WordDetails where
  pronunciation : String
  pronunciations : List PronunciationInfo
  definitions : List WordDefinition
  examples : List String
deriving DecidableEq, Repr

/-- The audio URL is attached only when the field is truthy and not blank
after trimming (`phonetic.audio && phonetic.audio.trim() !== ''`); a trim
result is empty exactly when every character is whitespace. -/
def keepAudio (audio : Option String) : Option String :=
  match audio with
  | none => none
  | some a => if a.data.all jsIsWhitespace then none else some a

/-- The phonetics loop of fetchWordDetails: every entry with truthy text is
collected, keeping its audio URL when that is truthy and nonblank. -/
def collectPronunciations (phonetics : List Phonetic) : List PronunciationInfo :=
  phonetics.filterMap fun p =>
    (jsTruthy p.text).map fun t =>
      { text := t, audio := keepAudio p.audio }

/-- Pronunciation extraction of fetchWordDetails: the primary pronunciation
is the text of the first collected entry; with none collected it falls back
to the top-level phonetic field; with that also absent it synthesizes the
placeholder built from the queried word. -/
def extractPronunciations (word : String) (r : DictionaryApiResponse) :
    String × List PronunciationInfo :=
  match collectPronunciations r.phonetics with
  | p :: ps => (p.text, p :: ps)
  | [] =>
    match jsTruthy r.phonetic with
    | some ph => (ph, [{ text := ph, audio := none }])
    | none => ("/" ++ word ++ "/", [{ text := "/" ++ word ++ "/", audio := none }])

/-- Pre-cap definition extraction of fetchWordDetails: at most the first 3
definitions of each meaning group, each tagged with the group's part of
speech (`if (index < 3) definitions.push(...)`). -/
def extractDefinitions (meanings : List Meaning) : List WordDefinition :=
  meanings.flatMap fun m =>
    (m.definitions.take 3).map fun d =>
      { partOfSpeech := m.partOfSpeech, definition := d.definition }

/-- Example collection of fetchWordDetails: scan every definition of every
meaning in order and keep each truthy example while fewer than 5 have been
collected. -/
def collectExamples (meanings : List Meaning) : List String :=
  meanings.foldl
    (fun acc m =>
      m.definitions.foldl
        (fun acc2 d =>
          match jsTruthy d.exampleText with
          | some e => if acc2.length < 5 then acc2 ++ [e] else acc2
          | none => acc2)
        acc)
    []

/-- The success-path processing of the first returned API entry, mirroring
the tail of fetchWordDetails: synthesized example when none were found,
definitions capped at 5 and examples at 3 on return. -/
def processApiData (word : String) (wordData : DictionaryApiResponse) :
    WordDetails :=
  let pr := extractPronunciations word wordData
  let definitions := extractDefinitions wordData.meanings
  let examples0 := collectExamples wordData.meanings
  let examples :=
    if examples0 = [] then
      ["This is an example sentence with the word \"" ++ word ++ "\"."]
    else examples0
  { pronunciation := pr.1
    pronunciations := pr.2
    definitions := definitions.take 5
    examples := examples.take 3 }

/-- Outcome of response.json(): a parse failure, or parsed data that may be
null. -/
inductive JsonOutcome where
  | parseError : JsonOutcome
  | parsed : Option (List DictionaryApiResponse) → JsonOutcome
deriving DecidableEq

/-- One round trip to the dictionary service: the fetch itself can reject, or
deliver a response with an HTTP status and a body. -/
inductive FetchOutcome where
  | networkError : FetchOutcome
  | response : Nat → JsonOutcome → FetchOutcome
deriving DecidableEq

/-- HTTP response.ok: status in the 200-299 range. -/
def responseOk (status : Nat) : Bool :=
  200 ≤ status && status ≤ 299

/-- The try-block body of fetchWordDetails.  `.ok none` is the explicit
not-found return, `.error` a thrown failure: 404 returns null, any other
non-ok status throws, a json rejection or a null or empty array returns
null or throws exactly as the source does. -/
def fetchWordDetailsBody (word : String) (o : FetchOutcome) :
    Except String (Option WordDetails) :=
  match o with
  | .networkError => .error "network error"
  | .response status body =>
    if !(responseOk status) then
      if status = 404 then .ok none
      else .error ("API request failed: " ++ toString status)
    else
      match body with
      | .parseError => .error "json parse error"
      | .parsed none => .ok none
      | .parsed (some []) => .ok none
      | .parsed (some (wordData :: _)) =>
        .ok (some (processApiData word wordData))

/-- fetchWordDetails as callers see it: the surrounding catch turns every
thrown failure into the same null used for the not-found case. -/
def fetchWordDetails (word : String) (o : FetchOutcome) : Option WordDetails :=
  match fetchWordDetailsBody word o with
  | .ok r => r
  | .error _ => none

/-- Fixture: a response with 4 meaning groups of 4 definitions each,
matching the spec's fetcher-cap test. -/
def fourByFour : DictionaryApiResponse :=
  { word := "test"
    phonetic := none
    phonetics := []
    meanings :=
      ["noun", "verb", "adjective", "adverb"].map fun pos =>
        { partOfSpeech := pos
          definitions :=
            ["d1", "d2", "d3", "d4"].map fun d =>
              { definition := d, exampleText := none
                synonyms := none, antonyms := none } } }

/-- Fixture: a response whose first phonetics entry has text and audio. -/
def phonSample : DictionaryApiResponse :=
  { word := "cat"
    phonetic := some "/top/"
    phonetics :=
      [{ text := none, audio := some "a.mp3" },
       { text := some "/kat/", audio := some "b.mp3" },
       { text := some "/kot/", audio := some "   " }]
    meanings := [] }

/- ### Word store (src/lib/supabase.ts) -/

/-- One row of the remote `words` table (interface Word in
src/lib/supabase.ts).  Identifiers are opaque and unique (the table's
primary key); the model draws them from a counter. -/
structure Word where
  id : Nat
  word : String
  frequency : Nat
  created_at : ℤ
  pronunciation : Option String
  pronunciations : Option (List PronunciationInfo)
  definitions : Option (List WordDefinition)
  examples : Option (List String)
  last_fetched_at : Option ℤ
deriving DecidableEq, Repr

/-- The remote table: its rows plus a fresh-identifier counter standing in
for the database's key generation. -/
structure Store where
  rows : List Word
  nextId : Nat
deriving DecidableEq, Repr

/-- Database well-formedness: the primary key determines the row, and the
counter is ahead of every existing id. -/
def Store.WF (s : Store) : Prop :=
  (∀ r ∈ s.rows, ∀ q ∈ s.rows, r.id = q.id → r = q)
  ∧ ∀ r ∈ s.rows, r.id < s.nextId

/-- Lookup by word text, modelling `.eq('word', w).maybeSingle()` (the
unique constraint on the word column allows at most one match). -/
def findByWord (rows : List Word) (w : String) : Option Word :=
  rows.find? fun r => r.word == w

/-- addOrUpdateWord of src/lib/supabase.ts.  `fails w` injects the
store-failure path (a thrown query error), which the source catches and
converts to null without a write.  Otherwise the word is lowercased; an
existing row has its frequency set to old + 1 by an update keyed on its id,
and the updated row is returned; a missing word gets a new row with
frequency 1. -/
def addOrUpdateWord (fails : String → Bool) (store : Store) (now : ℤ)
    (word : String) : Option Word × Store :=
  let normalizedWord := jsToLower word
  if fails normalizedWord then (none, store)
  else
    match findByWord store.rows normalizedWord with
    | some existingWord =>
      let rows := store.rows.map fun r =>
        if r.id == existingWord.id then { r with frequency := r.frequency + 1 }
        else r
      (rows.find? fun r => r.id == existingWord.id, { store with rows := rows })
    | none =>
      let newRow : Word :=
        { id := store.nextId, word := normalizedWord, frequency := 1
          created_at := now, pronunciation := none, pronunciations := none
          definitions := none, examples := none, last_fetched_at := none }
      (some newRow,
       { rows := store.rows ++ [newRow], nextId := store.nextId + 1 })

/-- `[...new Set(l)]`: the distinct elements of l in first-occurrence
order. -/
def jsSetDedupAux : List String → List String → List String
  | [], _ => []
  | w :: ws, seen =>
    if w ∈ seen then jsSetDedupAux ws seen
    else w :: jsSetDedupAux ws (w :: seen)

def jsSetDedup (ws : List String) : List String :=
  jsSetDedupAux ws []

/-- Run the per-word upserts left to right.  The source starts one promise
per word and waits with Promise.all; after deduplication the words are
pairwise distinct and each operation touches only its own word's row, so
this sequential run models the interleavings; results keep the word
order. -/
def runWords (fails : String → Bool) (now : ℤ) :
    List String → Store → List (String × Option Word) × Store
  | [], store => ([], store)
  | w :: ws, store =>
    let step := addOrUpdateWord fails store now w
    let rest := runWords fails now ws step.2
    ((w, step.1) :: rest.1, rest.2)

/-- addOrUpdateWordsConcurrently of src/lib/supabase.ts: lowercase and
deduplicate the words, run one upsert per distinct word, and partition the
settled results into successful rows and failed word strings. -/
def addOrUpdateWordsConcurrently (fails : String → Bool) (store : Store)
    (now : ℤ) (words : List String) : (List Word × List String) × Store :=
  let uniqueWords := jsSetDedup (words.map jsToLower)
  let run := runWords fails now uniqueWords store
  ((run.1.filterMap fun p => p.2,
    run.1.filterMap fun p => if p.2.isSome then none else some p.1),
   run.2)

/-- Stored frequency of a word: its row's frequency, 0 when absent. -/
def freq (store : Store) (w : String) : Nat :=
  match findByWord store.rows w with
  | some r => r.frequency
  | none => 0

/-- JS String.prototype.trim: whitespace removed from both ends. -/
def jsTrim (s : String) : String :=
  String.mk
    ((s.data.dropWhile jsIsWhitespace).reverse.dropWhile jsIsWhitespace).reverse

/-- processWords of src/components/WordInput.tsx on the model's state: a
blank input returns before tokenizing, a tokenization with no valid words
returns before any store call, and otherwise the batch runs and its
partition is reported. -/
def processWords (inputText : String) (fails : String → Bool) (store : Store)
    (now : ℤ) : Option (List Word × List String) × Store :=
  if jsTrim inputText = "" then (none, store)
  else
    let words := extractWords inputText
    if words = [] then (none, store)
    else
      let run := addOrUpdateWordsConcurrently fails store now words
      (some run.1, run.2)

/-- The details payload of updateWordDetails: all four fields optional. -/
structure WordDetailsPayload where
  pronunciation : Option String
  pronunciations : Option (List PronunciationInfo)
  definitions : Option (List WordDefinition)
  examples : Option (List String)
deriving DecidableEq, Repr

/-- One field of the serialized update object: a present payload value
overwrites the stored column, but a field whose value is undefined is
dropped from the request body by the client's JSON serialization, so the
column keeps its prior stored value. -/
def updateField {α : Type} (payload : Option α) (stored : Option α) :
    Option α :=
  match payload with
  | some v => some v
  | none => stored

/-- The column writes of updateWordDetails as they reach the database: each
detail column takes the payload's field when that field is present, and an
absent payload field leaves the column's prior stored value in place (its
undefined value is dropped from the serialized update body, so the column
is not in the update at all); last_fetched_at is always present and stamped
to now; id, word, frequency and created_at are never in the update's column
list. -/
def applyDetails (details : WordDetailsPayload) (now : ℤ) (r : Word) : Word :=
  { r with
    pronunciation := updateField details.pronunciation r.pronunciation
    pronunciations := updateField details.pronunciations r.pronunciations
    definitions := updateField details.definitions r.definitions
    examples := updateField details.examples r.examples
    last_fetched_at := some now }

/-- updateWordDetails of src/lib/supabase.ts: the update is keyed on the id
and writes the columns as `applyDetails` describes; `.single()` errors when
no row matched, which the catch converts to null; otherwise the updated row
is returned. -/
def updateWordDetails (store : Store) (wordId : Nat)
    (details : WordDetailsPayload) (now : ℤ) : Option (Word × Store) :=
  match store.rows.find? (fun r => r.id == wordId) with
  | none => none
  | some _ =>
    let rows := store.rows.map fun r =>
      if r.id == wordId then applyDetails details now r else r
    (rows.find? fun r => r.id == wordId).map fun updated =>
      (updated, { store with rows := rows })

/-- Fixture: a one-row store holding the word "cat" with frequency 3. -/
def sampleRow : Word :=
  { id := 1, word := "cat", frequency := 3, created_at := 5
    pronunciation := some "/kat/", pronunciations := none
    definitions := none, examples := none, last_fetched_at := none }

def sampleStore : Store :=
  { rows := [sampleRow], nextId := 2 }

/-- Fixture: a payload carrying only example sentences, as in the spec's
replace-wholesale test. -/
def examplesOnlyPayload : WordDetailsPayload :=
  { pronunciation := none, pronunciations := none, definitions := none
    examples := some ["An example."] }

/- ### Tokenizer lemmas -/

theorem filter_cons_nonempty (a : Char) (as : List Char)
    (ls : List (List Char)) :
    ((as.reverse ++ [a]) :: ls).filter (fun w => !w.isEmpty)
      = (as.reverse ++ [a]) :: ls.filter (fun w => !w.isEmpty) := by
  rcases h : as.reverse ++ [a] with _ | ⟨b, bs⟩
  · exact absurd h (by simp)
  · rfl

theorem splitWsAux_filter (cs : List Char) :
    ∀ acc, (splitWsAux cs acc).filter (fun w => !w.isEmpty) =
      splitRunsAux cs acc := by
  induction cs with
  | nil =>
    intro acc
    cases acc with
    | nil => rfl
    | cons a as =>
      have h := filter_cons_nonempty a as []
      simp only [splitWsAux, splitRunsAux, List.reverse_cons]
      rw [h]
      rfl
  | cons c cs ih =>
    intro acc
    simp only [splitWsAux, splitRunsAux]
    by_cases hc : jsIsWhitespace c
    · simp only [hc, if_true]
      cases acc with
      | nil => exact ih []
      | cons a as =>
        simp only [List.reverse_cons]
        rw [filter_cons_nonempty a as (splitWsAux cs []), ih []]
        rfl
    · simp only [hc, if_false]
      exact ih (c :: acc)

theorem splitRuns_eq_filter (cs : List Char) :
    splitRuns cs = (splitWs cs).filter (fun w => !w.isEmpty) := by
  rw [splitRuns, splitWs, splitWsAux_filter]

theorem tokenize_eq_specTokenize (cs : List Char) :
    tokenize cs = specTokenize cs := by
  have h1 : (splitWs (cs.map jsToLowerChar)).filter
        (fun w => decide (0 < w.length))
      = (splitWs (cs.map jsToLowerChar)).filter (fun w => !w.isEmpty) := by
    apply List.filter_congr
    intro w _
    cases w with
    | nil => rfl
    | cons a as =>
      rw [Bool.eq_iff_iff]
      simp
  unfold tokenize specTokenize
  rw [splitRuns_eq_filter, h1, List.filter_filter, List.filter_filter]
  apply List.filter_congr
  intro w _
  cases w with
  | nil => rfl
  | cons a as =>
    cases as with
    | nil => rfl
    | cons b bs =>
      rw [Bool.eq_iff_iff]
      simp only [Bool.and_eq_true, decide_eq_true_eq, bne_iff_ne, ne_eq,
        List.isEmpty_cons, Bool.not_false, and_true, List.length_cons]
      refine ⟨fun h => ?_, fun h => ?_⟩ <;> omega

theorem mem_tokenize_shape {cs : List Char} {w : List Char}
    (hw : w ∈ tokenize cs) :
    2 ≤ w.length ∧ ∀ c ∈ w, isAsciiLower c = true := by
  unfold tokenize at hw
  have h2 := List.of_mem_filter hw
  have hw1 := List.mem_of_mem_filter hw
  have hw2 := List.mem_of_mem_filter hw1
  rcases List.mem_map.mp hw2 with ⟨w0, _, rfl⟩
  refine ⟨by simpa using h2, ?_⟩
  intro c hc
  exact List.of_mem_filter hc

/-- C4.  The tokenizer lowercases, splits on whitespace runs, strips
non-lowercase-Latin characters, and discards empty and single-letter
tokens: it coincides with the spec-side description `specTokenize`, every
token it emits has length at least 2 and only lowercase Latin letters, and
the input "Hello, World! 123 a an" tokenizes to ["hello", "world", "an"]. -/
theorem claim4_tokenizer (inputText : String) :
    tokenize inputText.data = specTokenize inputText.data
  ∧ (∀ w ∈ tokenize inputText.data,
      2 ≤ w.length ∧ ∀ c ∈ w, isAsciiLower c = true)
  ∧ extractWords "Hello, World! 123 a an" = ["hello", "world", "an"] := by
  refine ⟨tokenize_eq_specTokenize _, fun w hw => mem_tokenize_shape hw, ?_⟩
  decide

/-- Witness for C4 at a concrete token of a concrete input. -/
theorem claim4_tokenizer_witness :
    2 ≤ ("hello".data : List Char).length ∧
      ∀ c ∈ ("hello".data : List Char), isAsciiLower c = true :=
  (claim4_tokenizer "Hello, World! 123 a an").2.1 "hello".data (by decide)

/-- C7.  The staleness check returns true exactly when the timestamp is
absent or the elapsed hours exceed the maximum age; with the default
threshold of 168 hours, an absent timestamp needs refresh, a just-now
timestamp does not, and a 169-hours-old timestamp does. -/
theorem claim7_staleness (last : Option ℤ) (m : ℚ) (nowMs : ℤ) :
    (shouldUpdateWordDetails last m nowMs = true ↔
      last = none ∨ ∃ t, last = some t ∧ hoursSince nowMs t > m)
  ∧ defaultMaxAgeHours = 168
  ∧ shouldUpdateWordDetails none defaultMaxAgeHours nowMs = true
  ∧ shouldUpdateWordDetails (some nowMs) defaultMaxAgeHours nowMs = false
  ∧ shouldUpdateWordDetails (some (nowMs - 169 * (1000 * 60 * 60)))
      defaultMaxAgeHours nowMs = true := by
  refine ⟨?_, by norm_num [defaultMaxAgeHours], ?_, ?_, ?_⟩
  · cases last with
    | none => simp [shouldUpdateWordDetails]
    | some t => simp [shouldUpdateWordDetails]
  · rfl
  · simp [shouldUpdateWordDetails, hoursSince, defaultMaxAgeHours]
  · simp only [shouldUpdateWordDetails, hoursSince, defaultMaxAgeHours]
    rw [decide_eq_true_iff]
    push_cast
    norm_num

/- ### Fetcher lemmas -/

theorem extractDefinitions_cons (m : Meaning) (ms : List Meaning) :
    extractDefinitions (m :: ms)
      = ((m.definitions.take 3).map fun d =>
          { partOfSpeech := m.partOfSpeech, definition := d.definition })
        ++ extractDefinitions ms := by
  simp [extractDefinitions]

theorem mem_extractDefinitions_tag {ms : List Meaning} {dd : WordDefinition}
    (h : dd ∈ extractDefinitions ms) :
    dd.partOfSpeech ∈ ms.map Meaning.partOfSpeech := by
  unfold extractDefinitions at h
  rcases List.mem_flatMap.mp h with ⟨m, hm, hdd⟩
  rcases List.mem_map.mp hdd with ⟨d, _, rfl⟩
  exact List.mem_map.mpr ⟨m, hm, rfl⟩

theorem countP_extractDefinitions_le (ms : List Meaning)
    (h : (ms.map Meaning.partOfSpeech).Nodup) (pos : String) :
    (extractDefinitions ms).countP (fun dd => dd.partOfSpeech == pos) ≤ 3 := by
  induction ms with
  | nil => simp [extractDefinitions]
  | cons m ms ih =>
    rw [List.map_cons, List.nodup_cons] at h
    rw [extractDefinitions_cons, List.countP_append]
    by_cases hpos : m.partOfSpeech = pos
    · have hz : (extractDefinitions ms).countP
          (fun dd => dd.partOfSpeech == pos) = 0 := by
        rw [List.countP_eq_zero]
        intro dd hdd hbeq
        rw [beq_iff_eq] at hbeq
        exact h.1 (by rw [hpos, ← hbeq]; exact mem_extractDefinitions_tag hdd)
      have hb : (((m.definitions.take 3).map fun d =>
            ({ partOfSpeech := m.partOfSpeech, definition := d.definition }
              : WordDefinition)).countP (fun dd => dd.partOfSpeech == pos)) ≤ 3 := by
        refine le_trans (List.countP_le_length _) ?_
        rw [List.length_map, List.length_take]
        omega
      omega
    · have hz : (((m.definitions.take 3).map fun d =>
            ({ partOfSpeech := m.partOfSpeech, definition := d.definition }
              : WordDefinition)).countP (fun dd => dd.partOfSpeech == pos)) = 0 := by
        rw [List.countP_eq_zero]
        intro dd hdd hbeq
        rcases List.mem_map.mp hdd with ⟨d, _, rfl⟩
        rw [beq_iff_eq] at hbeq
        exact hpos hbeq
      have := ih h.2
      omega

theorem collectPronunciations_head (phonetics : List Phonetic) :
    (collectPronunciations phonetics).head?.map PronunciationInfo.text
      = phonetics.findSome? (fun p => jsTruthy p.text) := by
  induction phonetics with
  | nil => rfl
  | cons p ps ih =>
    cases h : jsTruthy p.text with
    | none =>
      simpa [collectPronunciations, List.filterMap_cons, List.findSome?_cons, h]
        using ih
    | some t =>
      simp [collectPronunciations, List.filterMap_cons, List.findSome?_cons, h]

theorem mem_collectPronunciations_of_truthy {phonetics : List Phonetic}
    {p : Phonetic} (hp : p ∈ phonetics) {t : String}
    (ht : jsTruthy p.text = some t) :
    PronunciationInfo.mk t (keepAudio p.audio) ∈ collectPronunciations phonetics := by
  apply List.mem_filterMap.mpr
  exact ⟨p, hp, by rw [ht]; rfl⟩

theorem mem_extractPronunciations_of_collect (word : String)
    (r : DictionaryApiResponse) {q : PronunciationInfo}
    (hq : q ∈ collectPronunciations r.phonetics) :
    q ∈ (extractPronunciations word r).2 := by
  unfold extractPronunciations
  cases hc : collectPronunciations r.phonetics with
  | nil => rw [hc] at hq; cases hq
  | cons a as => rw [hc] at hq; exact hq

/- ### Claims C3, C5, C6, C8 -/

/-- C3 (corrected: the source's throw for a non-404 non-success response is
caught by the function's own catch, which returns the same null used for
not-found, so the caller sees no distinct failure outcome).
Counterexample: a 500 response yields exactly the value of the 404 case. -/
theorem claim3_counterexample :
    fetchWordDetails "test" (FetchOutcome.response 500 (JsonOutcome.parsed none))
      = fetchWordDetails "test" (FetchOutcome.response 404 (JsonOutcome.parsed none))
  ∧ fetchWordDetails "test" (FetchOutcome.response 500 (JsonOutcome.parsed none))
      = none :=
  ⟨rfl, rfl⟩

/-- C3 (amended).  The request-handling body distinguishes three outcomes —
success gives the processed Details, a 404 gives the explicit not-found
result without throwing, any other non-success response throws — but the
surrounding catch then collapses the thrown failure into the not-found
null before the caller sees it. -/
theorem claim3_fetch_outcomes (word : String) (status : Nat)
    (body : JsonOutcome) :
    (responseOk status = false → status = 404 →
      fetchWordDetailsBody word (FetchOutcome.response status body)
        = Except.ok none)
  ∧ (responseOk status = false → status ≠ 404 →
      ∃ e, fetchWordDetailsBody word (FetchOutcome.response status body)
        = Except.error e)
  ∧ (∀ wordData rest, responseOk status = true →
      fetchWordDetailsBody word
          (FetchOutcome.response status (JsonOutcome.parsed (some (wordData :: rest))))
        = Except.ok (some (processApiData word wordData)))
  ∧ (∀ e, fetchWordDetailsBody word (FetchOutcome.response status body)
        = Except.error e →
      fetchWordDetails word (FetchOutcome.response status body) = none) := by
  refine ⟨?_, ?_, ?_, ?_⟩
  · intro hok h4
    subst h4
    unfold fetchWordDetailsBody
    simp [hok]
  · intro hok h4
    unfold fetchWordDetailsBody
    simp [hok, h4]
  · intro wordData rest hok
    unfold fetchWordDetailsBody
    simp [hok]
  · intro e he
    unfold fetchWordDetails
    rw [he]

/-- Witness for C3's amended theorem: a 500 response makes the body throw. -/
theorem claim3_witness :
    ∃ e, fetchWordDetailsBody "cat" (FetchOutcome.response 500 JsonOutcome.parseError)
      = Except.error e :=
  (claim3_fetch_outcomes "cat" 500 JsonOutcome.parseError).2.1 (by decide) (by decide)

/-- C5.  The returned definition list is capped at 5; the pre-cap
intermediate holds at most the first 3 definitions of each meaning group
(counted per part-of-speech tag when the groups' tags are distinct); and the
4-meanings-by-4-definitions fixture yields exactly 5 definitions. -/
theorem claim5_definition_caps (word : String) (r : DictionaryApiResponse) :
    (processApiData word r).definitions.length ≤ 5
  ∧ ((r.meanings.map Meaning.partOfSpeech).Nodup →
      ∀ pos, (extractDefinitions r.meanings).countP
          (fun dd => dd.partOfSpeech == pos) ≤ 3)
  ∧ (processApiData "test" fourByFour).definitions.length = 5 := by
  refine ⟨?_, fun h pos => countP_extractDefinitions_le r.meanings h pos, ?_⟩
  · show ((extractDefinitions r.meanings).take 5).length ≤ 5
    rw [List.length_take]
    omega
  · decide

/-- Witness for C5 at the 4-by-4 fixture and the "noun" group. -/
theorem claim5_witness :
    (extractDefinitions fourByFour.meanings).countP
      (fun dd => dd.partOfSpeech == "noun") ≤ 3 :=
  (claim5_definition_caps "test" fourByFour).2.1 (by decide) "noun"

/-- C6.  The primary pronunciation is the first phonetics entry with truthy
text; with none, the top-level phonetic field; with that also missing, the
synthesized placeholder; and every phonetics entry with truthy text is
collected into the result, keeping its (truthy, nonblank) audio URL. -/
theorem claim6_pronunciation_fallback (word : String) (r : DictionaryApiResponse) :
    (∀ t, r.phonetics.findSome? (fun p => jsTruthy p.text) = some t →
        (processApiData word r).pronunciation = t)
  ∧ (r.phonetics.findSome? (fun p => jsTruthy p.text) = none →
       (∀ ph, jsTruthy r.phonetic = some ph →
          (processApiData word r).pronunciation = ph)
     ∧ (jsTruthy r.phonetic = none →
          (processApiData word r).pronunciation = "/" ++ word ++ "/"))
  ∧ (∀ p, p ∈ r.phonetics → ∀ t, jsTruthy p.text = some t →
        PronunciationInfo.mk t (keepAudio p.audio)
          ∈ (processApiData word r).pronunciations) := by
  refine ⟨?_, ?_, ?_⟩
  · intro t ht
    have hh := collectPronunciations_head r.phonetics
    rw [ht] at hh
    show (extractPronunciations word r).1 = t
    unfold extractPronunciations
    cases hc : collectPronunciations r.phonetics with
    | nil => rw [hc] at hh; simp at hh
    | cons a as =>
      rw [hc] at hh
      simp only [List.head?, Option.map_some'] at hh
      exact Option.some.inj hh
  · intro hnone
    have hh := collectPronunciations_head r.phonetics
    rw [hnone] at hh
    have hnil : collectPronunciations r.phonetics = [] := by
      cases hc : collectPronunciations r.phonetics with
      | nil => rfl
      | cons a as => rw [hc] at hh; simp at hh
    constructor
    · intro ph hph
      show (extractPronunciations word r).1 = ph
      unfold extractPronunciations
      rw [hnil, hph]
    · intro hph
      show (extractPronunciations word r).1 = "/" ++ word ++ "/"
      unfold extractPronunciations
      rw [hnil, hph]
  · intro p hp t ht
    show PronunciationInfo.mk t (keepAudio p.audio)
      ∈ (extractPronunciations word r).2
    exact mem_extractPronunciations_of_collect word r
      (mem_collectPronunciations_of_truthy hp ht)

/-- Witness for C6 at a fixture whose second phonetics entry is the first
with truthy text. -/
theorem claim6_witness :
    (processApiData "cat" phonSample).pronunciation = "/kat/" :=
  (claim6_pronunciation_fallback "cat" phonSample).1 "/kat/" (by decide)

/-- C8.  The public fetch never surfaces a failure: a body-level throw is
converted to null, and every failure path — network rejection, non-success
status (404 or otherwise), json parse failure, null or empty data — yields
the same null used for the not-found case. -/
theorem claim8_fetch_null_on_failure (word : String) (status : Nat)
    (body : JsonOutcome) (o : FetchOutcome) :
    ((∃ e, fetchWordDetailsBody word o = Except.error e) →
        fetchWordDetails word o = none)
  ∧ fetchWordDetails word FetchOutcome.networkError = none
  ∧ (responseOk status = false →
      fetchWordDetails word (FetchOutcome.response status body) = none)
  ∧ fetchWordDetails word (FetchOutcome.response status JsonOutcome.parseError)
      = none
  ∧ fetchWordDetails word (FetchOutcome.response status (JsonOutcome.parsed none))
      = none
  ∧ fetchWordDetails word
      (FetchOutcome.response status (JsonOutcome.parsed (some []))) = none := by
  refine ⟨?_, rfl, ?_, ?_, ?_, ?_⟩
  · rintro ⟨e, he⟩
    unfold fetchWordDetails
    rw [he]
  · intro hok
    unfold fetchWordDetails fetchWordDetailsBody
    by_cases h4 : status = 404
    · subst h4
      simp [hok]
    · simp [hok, h4]
  · unfold fetchWordDetails fetchWordDetailsBody
    cases hok : responseOk status with
    | false =>
      by_cases h4 : status = 404
      · subst h4
        simp [hok]
      · simp [hok, h4]
    | true => simp [hok]
  · unfold fetchWordDetails fetchWordDetailsBody
    cases hok : responseOk status with
    | false =>
      by_cases h4 : status = 404
      · subst h4
        simp [hok]
      · simp [hok, h4]
    | true => simp [hok]
  · unfold fetchWordDetails fetchWordDetailsBody
    cases hok : responseOk status with
    | false =>
      by_cases h4 : status = 404
      · subst h4
        simp [hok]
      · simp [hok, h4]
    | true => simp [hok]

/-- Witness for C8: a 503 response comes back as null. -/
theorem claim8_witness :
    fetchWordDetails "cat" (FetchOutcome.response 503 JsonOutcome.parseError)
      = none :=
  (claim8_fetch_null_on_failure "cat" 503 JsonOutcome.parseError
    (FetchOutcome.response 503 JsonOutcome.parseError)).2.2.1 (by decide)

/- ### Character and dedup lemmas -/

theorem toNat_ofNat_of_lt {n : Nat} (h : n < 55296) : (Char.ofNat n).toNat = n := by
  have hv : n.isValidChar := Or.inl h
  unfold Char.ofNat
  rw [dif_pos hv]
  rfl

theorem jsToLowerChar_not_upper (c : Char) :
    ¬(65 ≤ (jsToLowerChar c).toNat ∧ (jsToLowerChar c).toNat ≤ 90) := by
  unfold jsToLowerChar
  by_cases h : 65 ≤ c.toNat ∧ c.toNat ≤ 90
  · rw [if_pos h, toNat_ofNat_of_lt (by omega)]
    omega
  · rw [if_neg h]
    omega

theorem jsToLowerChar_idem (c : Char) :
    jsToLowerChar (jsToLowerChar c) = jsToLowerChar c := by
  show (if 65 ≤ (jsToLowerChar c).toNat ∧ (jsToLowerChar c).toNat ≤ 90
        then Char.ofNat ((jsToLowerChar c).toNat + 32) else jsToLowerChar c)
      = jsToLowerChar c
  rw [if_neg (jsToLowerChar_not_upper c)]

theorem jsToLower_idem (s : String) : jsToLower (jsToLower s) = jsToLower s := by
  show String.mk ((s.data.map jsToLowerChar).map jsToLowerChar)
      = String.mk (s.data.map jsToLowerChar)
  rw [List.map_map]
  exact congrArg String.mk
    (List.map_congr_left fun c _ => jsToLowerChar_idem c)

theorem jsToLower_of_lower {s : String}
    (h : ∀ c ∈ s.data, isAsciiLower c = true) : jsToLower s = s := by
  have hmap : s.data.map jsToLowerChar = s.data.map id := by
    apply List.map_congr_left
    intro c hc
    have hb : 97 ≤ c.toNat ∧ c.toNat ≤ 122 := by
      have := h c hc
      simp only [isAsciiLower, Bool.and_eq_true, decide_eq_true_eq] at this
      exact this
    show jsToLowerChar c = c
    unfold jsToLowerChar
    rw [if_neg (by omega)]
  show String.mk (s.data.map jsToLowerChar) = s
  rw [hmap, List.map_id]

theorem mem_jsSetDedupAux {x : String} :
    ∀ (l seen : List String), x ∈ jsSetDedupAux l seen ↔ (x ∈ l ∧ x ∉ seen) := by
  intro l
  induction l with
  | nil => intro seen; simp [jsSetDedupAux]
  | cons w ws ih =>
    intro seen
    unfold jsSetDedupAux
    by_cases hw : w ∈ seen
    · rw [if_pos hw, ih]
      constructor
      · rintro ⟨hx, hs⟩
        exact ⟨List.mem_cons_of_mem _ hx, hs⟩
      · rintro ⟨hx, hs⟩
        rcases List.mem_cons.mp hx with rfl | hx
        · exact absurd hw hs
        · exact ⟨hx, hs⟩
    · rw [if_neg hw]
      constructor
      · intro hx
        rcases List.mem_cons.mp hx with rfl | hx
        · exact ⟨List.mem_cons_self _ _, hw⟩
        · rw [ih] at hx
          refine ⟨List.mem_cons_of_mem _ hx.1, fun hs => ?_⟩
          exact hx.2 (List.mem_cons_of_mem _ hs)
      · rintro ⟨hx, hs⟩
        rcases List.mem_cons.mp hx with rfl | hx
        · exact List.mem_cons_self _ _
        · by_cases hxw : x = w
          · subst hxw
            exact List.mem_cons_self _ _
          · apply List.mem_cons_of_mem
            rw [ih]
            refine ⟨hx, fun hsx => ?_⟩
            rcases List.mem_cons.mp hsx with h | h
            · exact hxw h
            · exact hs h

theorem mem_jsSetDedup {x : String} {l : List String} :
    x ∈ jsSetDedup l ↔ x ∈ l := by
  rw [jsSetDedup, mem_jsSetDedupAux]
  simp

theorem nodup_jsSetDedupAux :
    ∀ (l seen : List String), (jsSetDedupAux l seen).Nodup := by
  intro l
  induction l with
  | nil => intro seen; simp [jsSetDedupAux]
  | cons w ws ih =>
    intro seen
    unfold jsSetDedupAux
    by_cases hw : w ∈ seen
    · rw [if_pos hw]
      exact ih seen
    · rw [if_neg hw]
      refine List.nodup_cons.mpr ⟨?_, ih (w :: seen)⟩
      rw [mem_jsSetDedupAux]
      rintro ⟨-, hs⟩
      exact hs (List.mem_cons_self _ _)

theorem nodup_jsSetDedup (l : List String) : (jsSetDedup l).Nodup :=
  nodup_jsSetDedupAux l []

/- ### find? helper lemmas -/

theorem find?_map_pred (rows : List Word) (f : Word → Word) (p : Word → Bool)
    (hf : ∀ r, p (f r) = p r) :
    (rows.map f).find? p = (rows.find? p).map f := by
  induction rows with
  | nil => rfl
  | cons r rows ih =>
    rw [List.map_cons]
    cases hp : p r with
    | true =>
      rw [List.find?_cons_of_pos _ (by rw [hf]; exact hp),
          List.find?_cons_of_pos _ hp]
      rfl
    | false =>
      rw [List.find?_cons_of_neg _ (by rw [hf, hp]; exact Bool.false_ne_true),
          List.find?_cons_of_neg _ (by rw [hp]; exact Bool.false_ne_true), ih]

theorem find?_append_of_some {p : Word → Bool} {l₁ : List Word} {r : Word}
    (l₂ : List Word) (h : l₁.find? p = some r) :
    (l₁ ++ l₂).find? p = some r := by
  induction l₁ with
  | nil => simp [List.find?] at h
  | cons a l₁ ih =>
    cases hp : p a with
    | true =>
      rw [List.find?_cons_of_pos _ hp] at h
      rw [List.cons_append, List.find?_cons_of_pos _ hp]
      exact h
    | false =>
      rw [List.find?_cons_of_neg _ (by rw [hp]; exact Bool.false_ne_true)] at h
      rw [List.cons_append,
          List.find?_cons_of_neg _ (by rw [hp]; exact Bool.false_ne_true)]
      exact ih h

theorem find?_append_of_none {p : Word → Bool} {l₁ : List Word}
    (l₂ : List Word) (h : l₁.find? p = none) :
    (l₁ ++ l₂).find? p = l₂.find? p := by
  induction l₁ with
  | nil => rfl
  | cons a l₁ ih =>
    cases hp : p a with
    | true =>
      rw [List.find?_cons_of_pos _ hp] at h
      cases h
    | false =>
      rw [List.find?_cons_of_neg _ (by rw [hp]; exact Bool.false_ne_true)] at h
      rw [List.cons_append,
          List.find?_cons_of_neg _ (by rw [hp]; exact Bool.false_ne_true)]
      exact ih h

/- ### Single upsert lemmas -/

theorem Store.WF_map (s : Store) (hwf : Store.WF s) (f : Word → Word)
    (hf : ∀ r, (f r).id = r.id) :
    Store.WF { rows := s.rows.map f, nextId := s.nextId } := by
  constructor
  · intro a ha b hb hab
    rcases List.mem_map.mp ha with ⟨r, hr, rfl⟩
    rcases List.mem_map.mp hb with ⟨q, hq, rfl⟩
    rw [hf r, hf q] at hab
    rw [hwf.1 r hr q hq hab]
  · intro a ha
    rcases List.mem_map.mp ha with ⟨r, hr, rfl⟩
    rw [hf r]
    exact hwf.2 r hr

theorem addOrUpdateWord_freq_self (fails : String → Bool) (store : Store)
    (now : ℤ) (word : String)
    (hfail : fails (jsToLower word) = false) :
    freq (addOrUpdateWord fails store now word).2 (jsToLower word)
      = freq store (jsToLower word) + 1 := by
  simp only [addOrUpdateWord, hfail, Bool.false_eq_true, if_false]
  cases hex : findByWord store.rows (jsToLower word) with
  | some ex =>
    have hex' : store.rows.find? (fun r => r.word == jsToLower word) = some ex :=
      hex
    simp only [freq, findByWord]
    rw [find?_map_pred _ _ _
        (fun r => by by_cases h : (r.id == ex.id) = true <;> simp [h]),
      hex']
    simp [Option.map_some']
  | none =>
    have hex' : store.rows.find? (fun r => r.word == jsToLower word) = none :=
      hex
    simp only [freq, findByWord]
    rw [find?_append_of_none _ hex', hex']
    rw [List.find?_cons_of_pos _ (by simp)]

theorem addOrUpdateWord_freq_other (fails : String → Bool) (store : Store)
    (now : ℤ) (word v : String) (hwf : Store.WF store)
    (hv : v ≠ jsToLower word) :
    freq (addOrUpdateWord fails store now word).2 v = freq store v := by
  simp only [addOrUpdateWord]
  cases hb : fails (jsToLower word) with
  | true => simp
  | false =>
    simp only [Bool.false_eq_true, if_false]
    cases hex : findByWord store.rows (jsToLower word) with
    | some ex =>
      have hex' : store.rows.find? (fun r => r.word == jsToLower word) = some ex :=
        hex
      have hexw : ex.word = jsToLower word := by
        simpa using List.find?_some hex'
      have hexmem : ex ∈ store.rows := List.mem_of_find?_eq_some hex'
      simp only [freq, findByWord]
      rw [find?_map_pred _ _ _
          (fun r => by by_cases h : (r.id == ex.id) = true <;> simp [h])]
      cases hfv : store.rows.find? (fun r => r.word == v) with
      | none => rfl
      | some r =>
        have hrw : r.word = v := by simpa using List.find?_some hfv
        have hrmem : r ∈ store.rows := List.mem_of_find?_eq_some hfv
        have hne : r ≠ ex := fun h => hv (by rw [← hrw, h, hexw])
        have hne2 : r.id ≠ ex.id := fun hideq =>
          hne (hwf.1 r hrmem ex hexmem hideq)
        simp [hne2]
    | none =>
      have hex' : store.rows.find? (fun r => r.word == jsToLower word) = none :=
        hex
      simp only [freq, findByWord]
      cases hfv : store.rows.find? (fun r => r.word == v) with
      | some r => rw [find?_append_of_some _ hfv]
      | none =>
        rw [find?_append_of_none _ hfv]
        rw [List.find?_cons_of_neg _ (by simp; exact fun h => hv h.symm)]
        rfl

theorem Store.WF_insert (s : Store) (hwf : Store.WF s) (nr : Word)
    (hid : nr.id = s.nextId) :
    Store.WF { rows := s.rows ++ [nr], nextId := s.nextId + 1 } := by
  constructor
  · intro a ha b hb hab
    rcases List.mem_append.mp ha with ha | ha <;>
      rcases List.mem_append.mp hb with hb | hb
    · exact hwf.1 a ha b hb hab
    · rw [List.mem_singleton.mp hb, hid] at hab
      exact absurd hab (by have := hwf.2 a ha; omega)
    · rw [List.mem_singleton.mp ha, hid] at hab
      exact absurd hab.symm (by have := hwf.2 b hb; omega)
    · rw [List.mem_singleton.mp ha, List.mem_singleton.mp hb]
  · intro a ha
    change a.id < s.nextId + 1
    rcases List.mem_append.mp ha with ha | ha
    · have := hwf.2 a ha
      omega
    · rw [List.mem_singleton.mp ha, hid]
      omega

theorem addOrUpdateWord_WF (fails : String → Bool) (store : Store) (now : ℤ)
    (word : String) (hwf : Store.WF store) :
    Store.WF (addOrUpdateWord fails store now word).2 := by
  simp only [addOrUpdateWord]
  cases hb : fails (jsToLower word) with
  | true => simpa using hwf
  | false =>
    simp only [Bool.false_eq_true, if_false]
    cases hex : findByWord store.rows (jsToLower word) with
    | some ex =>
      exact Store.WF_map store hwf _
        (fun r => by by_cases h : (r.id == ex.id) = true <;> simp [h])
    | none => exact Store.WF_insert store hwf _ rfl

theorem addOrUpdateWord_result_word (fails : String → Bool) (store : Store)
    (now : ℤ) (word : String) (hwf : Store.WF store) (rec : Word)
    (h : (addOrUpdateWord fails store now word).1 = some rec) :
    rec.word = jsToLower word := by
  simp only [addOrUpdateWord] at h
  cases hb : fails (jsToLower word) with
  | true => rw [hb] at h; simp at h
  | false =>
    rw [hb] at h
    simp only [Bool.false_eq_true, if_false] at h
    cases hex : findByWord store.rows (jsToLower word) with
    | some ex =>
      rw [hex] at h
      simp only at h
      have hex' : store.rows.find? (fun r => r.word == jsToLower word) = some ex :=
        hex
      have hexw : ex.word = jsToLower word := by
        simpa using List.find?_some hex'
      have hexmem : ex ∈ store.rows := List.mem_of_find?_eq_some hex'
      rw [find?_map_pred _ _ _
          (fun r => by by_cases hh : (r.id == ex.id) = true <;> simp [hh])] at h
      cases hf0 : store.rows.find? (fun r => r.id == ex.id) with
      | none => rw [hf0] at h; simp at h
      | some r0 =>
        rw [hf0] at h
        simp only [Option.map_some', Option.some.injEq] at h
        have hr0mem : r0 ∈ store.rows := List.mem_of_find?_eq_some hf0
        have hr0id : r0.id = ex.id := by simpa using List.find?_some hf0
        have hr0 : r0 = ex := hwf.1 r0 hr0mem ex hexmem hr0id
        subst hr0
        have hid : (r0.id == r0.id) = true := by simp
        rw [hid] at h
        simp only [if_true] at h
        rw [← h]
        exact hexw
    | none =>
      rw [hex] at h
      simp only [Option.some.injEq] at h
      rw [← h]

/- ### Batch run lemmas -/

theorem runWords_WF (fails : String → Bool) (now : ℤ) (ws : List String) :
    ∀ store : Store, Store.WF store → Store.WF (runWords fails now ws store).2 := by
  induction ws with
  | nil => intro store h; exact h
  | cons w ws ih =>
    intro store h
    exact ih _ (addOrUpdateWord_WF fails store now w h)

theorem runWords_freq_not_mem (fails : String → Bool) (now : ℤ)
    (ws : List String) :
    ∀ store : Store, Store.WF store → (∀ u ∈ ws, jsToLower u = u) →
      ∀ v, v ∉ ws → freq (runWords fails now ws store).2 v = freq store v := by
  induction ws with
  | nil => intro store _ _ v _; rfl
  | cons w ws ih =>
    intro store hwf hlow v hv
    have hv1 : v ≠ w := fun h => hv (h ▸ List.mem_cons_self _ _)
    have hv2 : v ∉ ws := fun h => hv (List.mem_cons_of_mem _ h)
    have hstep : freq (addOrUpdateWord fails store now w).2 v = freq store v :=
      addOrUpdateWord_freq_other fails store now w v hwf
        (by rw [hlow w (List.mem_cons_self _ _)]; exact hv1)
    calc freq (runWords fails now (w :: ws) store).2 v
        = freq (runWords fails now ws (addOrUpdateWord fails store now w).2).2 v :=
          rfl
      _ = freq (addOrUpdateWord fails store now w).2 v :=
          ih _ (addOrUpdateWord_WF fails store now w hwf)
            (fun x hx => hlow x (List.mem_cons_of_mem _ hx)) v hv2
      _ = freq store v := hstep

theorem runWords_freq_mem (fails : String → Bool) (now : ℤ)
    (ws : List String) :
    ∀ store : Store, Store.WF store → ws.Nodup →
      (∀ u ∈ ws, jsToLower u = u ∧ fails u = false) →
      ∀ w ∈ ws, freq (runWords fails now ws store).2 w = freq store w + 1 := by
  induction ws with
  | nil => intro store _ _ _ w hw; cases hw
  | cons u ws ih =>
    intro store hwf hnd hcond w hw
    have hwf1 := addOrUpdateWord_WF fails store now u hwf
    rcases List.mem_cons.mp hw with rfl | hw
    · have hu := hcond w (List.mem_cons_self _ _)
      have hstep :
          freq (addOrUpdateWord fails store now w).2 w = freq store w + 1 := by
        have h := addOrUpdateWord_freq_self fails store now w
          (by rw [hu.1]; exact hu.2)
        rwa [hu.1] at h
      have hnot : w ∉ ws := (List.nodup_cons.mp hnd).1
      calc freq (runWords fails now (w :: ws) store).2 w
          = freq (runWords fails now ws (addOrUpdateWord fails store now w).2).2 w :=
            rfl
        _ = freq (addOrUpdateWord fails store now w).2 w :=
            runWords_freq_not_mem fails now ws _ hwf1
              (fun x hx => (hcond x (List.mem_cons_of_mem _ hx)).1) w hnot
        _ = freq store w + 1 := hstep
    · have hu := hcond u (List.mem_cons_self _ _)
      have hne : w ≠ u := fun h => (List.nodup_cons.mp hnd).1 (h ▸ hw)
      have hstep : freq (addOrUpdateWord fails store now u).2 w = freq store w :=
        addOrUpdateWord_freq_other fails store now u w hwf
          (by rw [hu.1]; exact hne)
      calc freq (runWords fails now (u :: ws) store).2 w
          = freq (runWords fails now ws (addOrUpdateWord fails store now u).2).2 w :=
            rfl
        _ = freq (addOrUpdateWord fails store now u).2 w + 1 :=
            ih _ hwf1 (List.nodup_cons.mp hnd).2
              (fun x hx => hcond x (List.mem_cons_of_mem _ hx)) w hw
        _ = freq store w + 1 := by rw [hstep]

theorem runWords_keys (fails : String → Bool) (now : ℤ) (ws : List String) :
    ∀ store, ((runWords fails now ws store).1.map Prod.fst) = ws := by
  induction ws with
  | nil => intro store; rfl
  | cons w ws ih =>
    intro store
    simp only [runWords, List.map_cons]
    rw [ih]

theorem runWords_result_word (fails : String → Bool) (now : ℤ)
    (ws : List String) :
    ∀ store, Store.WF store → ∀ pr ∈ (runWords fails now ws store).1,
      ∀ rec, pr.2 = some rec → rec.word = jsToLower pr.1 := by
  induction ws with
  | nil =>
    intro store _ pr hpr
    exact absurd hpr (List.not_mem_nil pr)
  | cons w ws ih =>
    intro store hwf pr hpr rec hrec
    have hpr' : pr ∈ (w, (addOrUpdateWord fails store now w).1)
        :: (runWords fails now ws (addOrUpdateWord fails store now w).2).1 := hpr
    rcases List.mem_cons.mp hpr' with rfl | hmem
    · exact addOrUpdateWord_result_word fails store now w hwf rec hrec
    · exact ih _ (addOrUpdateWord_WF fails store now w hwf) pr hmem rec hrec

theorem assoc_unique {β : Type} :
    ∀ (l : List (String × β)) (k : String) (a b : β),
      (l.map Prod.fst).Nodup → (k, a) ∈ l → (k, b) ∈ l → a = b := by
  intro l
  induction l with
  | nil => intro k a b _ ha; exact absurd ha (List.not_mem_nil _)
  | cons p ps ih =>
    intro k a b hnd ha hb
    rw [List.map_cons, List.nodup_cons] at hnd
    rcases List.mem_cons.mp ha with ha | ha <;>
      rcases List.mem_cons.mp hb with hb | hb
    · exact congrArg Prod.snd (ha.trans hb.symm)
    · exfalso
      apply hnd.1
      rw [← ha]
      exact List.mem_map.mpr ⟨(k, b), hb, rfl⟩
    · exfalso
      apply hnd.1
      rw [← hb]
      exact List.mem_map.mpr ⟨(k, a), ha, rfl⟩
    · exact ih k a b hnd.2 ha hb

/- ### Whitespace and trim lemmas -/

theorem jsToLowerChar_of_ws {c : Char} (h : jsIsWhitespace c = true) :
    jsToLowerChar c = c := by
  have hnot : ¬(65 ≤ c.toNat ∧ c.toNat ≤ 90) := by
    simp only [jsIsWhitespace, Bool.or_eq_true, beq_iff_eq] at h
    rcases h with ((((rfl | rfl) | rfl) | rfl) | rfl) | rfl <;> decide
  unfold jsToLowerChar
  rw [if_neg hnot]

theorem splitWsAux_all_nil {cs : List Char}
    (h : ∀ c ∈ cs, jsIsWhitespace c = true) :
    ∀ w ∈ splitWsAux cs [], w = ([] : List Char) := by
  induction cs with
  | nil =>
    intro w hw
    simpa [splitWsAux] using hw
  | cons c cs ih =>
    intro w hw
    have hc := h c (List.mem_cons_self _ _)
    simp only [splitWsAux, hc, if_true, List.reverse_nil] at hw
    rcases List.mem_cons.mp hw with rfl | hw
    · rfl
    · exact ih (fun x hx => h x (List.mem_cons_of_mem _ hx)) w hw

theorem extractWords_of_all_ws {s : String}
    (h : ∀ c ∈ s.data, jsIsWhitespace c = true) : extractWords s = [] := by
  have hmap : ∀ c ∈ s.data.map jsToLowerChar, jsIsWhitespace c = true := by
    intro c hc
    rcases List.mem_map.mp hc with ⟨c0, hc0, rfl⟩
    rw [jsToLowerChar_of_ws (h c0 hc0)]
    exact h c0 hc0
  have hnil : (splitWs (s.data.map jsToLowerChar)).filter
      (fun w => decide (0 < w.length)) = [] := by
    rw [List.filter_eq_nil_iff]
    intro w hw
    rw [splitWsAux_all_nil hmap w hw]
    simp
  unfold extractWords tokenize
  rw [hnil]
  rfl

theorem dropWhile_head_false {p : Char → Bool} :
    ∀ (l : List Char) (a : Char) (as : List Char),
      l.dropWhile p = a :: as → p a = false := by
  intro l
  induction l with
  | nil =>
    intro a as h
    simp [List.dropWhile] at h
  | cons c cs ih =>
    intro a as h
    rw [List.dropWhile_cons] at h
    by_cases hc : p c = true
    · rw [if_pos hc] at h
      exact ih a as h
    · rw [if_neg hc] at h
      injection h with h1 h2
      subst h1
      simpa using hc

theorem all_ws_of_jsTrim_empty {s : String} (h : jsTrim s = "") :
    ∀ c ∈ s.data, jsIsWhitespace c = true := by
  have h2 : (((s.data.dropWhile jsIsWhitespace).reverse.dropWhile
      jsIsWhitespace).reverse) = [] := congrArg String.data h
  rw [List.reverse_eq_nil_iff, List.dropWhile_eq_nil_iff] at h2
  have h3 : ∀ x ∈ s.data.dropWhile jsIsWhitespace, jsIsWhitespace x = true :=
    fun x hx => h2 x (List.mem_reverse.mpr hx)
  have h4 : s.data.dropWhile jsIsWhitespace = [] := by
    cases hd : s.data.dropWhile jsIsWhitespace with
    | nil => rfl
    | cons a as =>
      have ha : jsIsWhitespace a = true :=
        h3 a (by rw [hd]; exact List.mem_cons_self _ _)
      have hfalse := dropWhile_head_false s.data a as hd
      rw [ha] at hfalse
      cases hfalse
  intro c hc
  have htw : c ∈ s.data.takeWhile jsIsWhitespace := by
    have happ := List.takeWhile_append_dropWhile (p := jsIsWhitespace) (l := s.data)
    rw [h4, List.append_nil] at happ
    rw [← happ] at hc
    exact hc
  exact List.mem_takeWhile_imp htw

/- ### Claims C1, C2, C9, C10 -/

/-- C1.  Submitting a text changes the stored frequency of every distinct
normalized word occurring in it by exactly 1: an unseen word's frequency
goes from 0 (no row) to 1, an existing word's from n to n + 1, and repeated
occurrences inside one submission collapse to the single increment because
the batch deduplicates before upserting. -/
theorem claim1_frequency_increment (text : String) (store : Store) (now : ℤ)
    (w : String) (hwf : Store.WF store) (hw : w ∈ extractWords text) :
    freq (processWords text (fun _ => false) store now).2 w
      = freq store w + 1 := by
  have hlowAll : ∀ u ∈ extractWords text, jsToLower u = u := by
    intro u hu
    rcases List.mem_map.mp hu with ⟨tk, htk, rfl⟩
    exact jsToLower_of_lower (mem_tokenize_shape htk).2
  have hmapid : (extractWords text).map jsToLower = extractWords text := by
    calc (extractWords text).map jsToLower
        = (extractWords text).map id := List.map_congr_left hlowAll
      _ = extractWords text := List.map_id _
  have htrim : ¬ jsTrim text = "" := fun h => by
    have hnil : extractWords text = [] :=
      extractWords_of_all_ws (all_ws_of_jsTrim_empty h)
    rw [hnil] at hw
    exact absurd hw (List.not_mem_nil w)
  have hne : ¬ extractWords text = [] := fun h => by
    rw [h] at hw
    exact absurd hw (List.not_mem_nil w)
  simp only [processWords]
  rw [if_neg htrim, if_neg hne]
  show freq (runWords (fun _ => false) now
      (jsSetDedup ((extractWords text).map jsToLower)) store).2 w
    = freq store w + 1
  rw [hmapid]
  refine runWords_freq_mem (fun _ => false) now (jsSetDedup (extractWords text))
    store hwf (nodup_jsSetDedup _) ?_ w (mem_jsSetDedup.mpr hw)
  intro u hu
  exact ⟨hlowAll u (mem_jsSetDedup.mp hu), rfl⟩

/-- Witness for C1: submitting "cat" five times in one text bumps the count
of "cat" by exactly 1. -/
theorem claim1_witness :
    freq (processWords "cat cat cat cat cat" (fun _ => false)
        (Store.mk [] 0) 0).2 "cat"
      = freq (Store.mk [] 0) "cat" + 1 :=
  claim1_frequency_increment "cat cat cat cat cat" (Store.mk [] 0) 0 "cat"
    ⟨fun r hr => absurd hr (List.not_mem_nil r),
     fun r hr => absurd hr (List.not_mem_nil r)⟩
    (by decide)

/-- C2 (corrected: a payload field that is absent does not end up absent in
the record — its undefined value is dropped from the serialized update, so
the column keeps its prior stored value, an implicit merge).
Counterexample: updating the stored "cat" row, whose pronunciation is
"/kat/", with a payload carrying only examples leaves the record's
pronunciation at "/kat/" even though the payload's pronunciation is
absent. -/
theorem claim2_counterexample :
    (updateWordDetails sampleStore 1 examplesOnlyPayload 777).map
        (fun upd => upd.1.pronunciation)
      = some (some "/kat/")
  ∧ examplesOnlyPayload.pronunciation = none := by
  exact ⟨by decide, rfl⟩

/-- C2 (amended).  updateDetails with id absent fails as NotFound (null);
with id present it returns the row whose detail columns take the payload's
present fields while each field absent from the payload keeps the row's
prior stored value, whose last-fetch timestamp is stamped to now, and whose
id, word, frequency and creation timestamp are unchanged. -/
theorem claim2_update_details (store : Store) (wordId : Nat)
    (details : WordDetailsPayload) (now : ℤ) :
    (store.rows.find? (fun r => r.id == wordId) = none →
      updateWordDetails store wordId details now = none)
  ∧ ∀ r, store.rows.find? (fun q => q.id == wordId) = some r →
      ∃ store2, updateWordDetails store wordId details now
        = some ({ id := r.id, word := r.word, frequency := r.frequency
                  created_at := r.created_at
                  pronunciation :=
                    updateField details.pronunciation r.pronunciation
                  pronunciations :=
                    updateField details.pronunciations r.pronunciations
                  definitions := updateField details.definitions r.definitions
                  examples := updateField details.examples r.examples
                  last_fetched_at := some now }, store2) := by
  constructor
  · intro h
    unfold updateWordDetails
    rw [h]
  · intro r hr
    refine ⟨{ store with rows := store.rows.map fun q =>
        if q.id == wordId then applyDetails details now q else q }, ?_⟩
    have hpeq : r.id = wordId := by simpa using List.find?_some hr
    simp only [updateWordDetails, hr]
    rw [find?_map_pred _ _ _
        (fun q => by by_cases h : (q.id == wordId) = true <;>
          simp [h, applyDetails])]
    rw [hr]
    simp [hpeq, applyDetails]

/-- Witness for C2's amended theorem: an examples-only payload overwrites
the examples column, keeps the prior pronunciation, and stamps the fetch
time on the stored "cat" row. -/
theorem claim2_witness :
    ∃ store2, updateWordDetails sampleStore 1 examplesOnlyPayload 777
      = some ({ id := 1, word := "cat", frequency := 3, created_at := 5
                pronunciation := some "/kat/", pronunciations := none
                definitions := none, examples := some ["An example."]
                last_fetched_at := some 777 }, store2) :=
  (claim2_update_details sampleStore 1 examplesOnlyPayload 777).2
    sampleRow (by decide)

/-- C9.  The batch result partitions the deduplicated lowercased input:
a word belongs to that set exactly when it shows up either as the word text
of a successful record or as a failed word string, and never as both. -/
theorem claim9_partition (words : List String) (fails : String → Bool)
    (store : Store) (now : ℤ) (w : String) (hwf : Store.WF store) :
    (w ∈ jsSetDedup (words.map jsToLower) ↔
      ((∃ rec ∈ (addOrUpdateWordsConcurrently fails store now words).1.1,
          rec.word = w)
        ∨ w ∈ (addOrUpdateWordsConcurrently fails store now words).1.2))
  ∧ ¬((∃ rec ∈ (addOrUpdateWordsConcurrently fails store now words).1.1,
        rec.word = w)
      ∧ w ∈ (addOrUpdateWordsConcurrently fails store now words).1.2) := by
  have hkeys := runWords_keys fails now (jsSetDedup (words.map jsToLower)) store
  have hnd : (((runWords fails now (jsSetDedup (words.map jsToLower))
      store).1).map Prod.fst).Nodup := by
    rw [hkeys]
    exact nodup_jsSetDedup _
  have hres := runWords_result_word fails now
    (jsSetDedup (words.map jsToLower)) store hwf
  have hlowfix : ∀ u ∈ jsSetDedup (words.map jsToLower), jsToLower u = u := by
    intro u hu
    rcases List.mem_map.mp (mem_jsSetDedup.mp hu) with ⟨x, _, rfl⟩
    exact jsToLower_idem x
  simp only [addOrUpdateWordsConcurrently]
  constructor
  · constructor
    · intro hwmem
      have hw' : w ∈ ((runWords fails now (jsSetDedup (words.map jsToLower))
          store).1).map Prod.fst := by
        rw [hkeys]
        exact hwmem
      rcases List.mem_map.mp hw' with ⟨pr, hpr, hfst⟩
      cases h2 : pr.2 with
      | some rec =>
        left
        refine ⟨rec, List.mem_filterMap.mpr ⟨pr, hpr, h2⟩, ?_⟩
        have hrw := hres pr hpr rec h2
        rw [hrw, hfst, hlowfix w hwmem]
      | none =>
        right
        refine List.mem_filterMap.mpr ⟨pr, hpr, ?_⟩
        rw [h2]
        simp [hfst]
    · rintro (⟨rec, hrec, hword⟩ | hfail)
      · rcases List.mem_filterMap.mp hrec with ⟨pr, hpr, h2⟩
        have hp1 : pr.1 ∈ jsSetDedup (words.map jsToLower) := by
          rw [← hkeys]
          exact List.mem_map.mpr ⟨pr, hpr, rfl⟩
        have hrw := hres pr hpr rec h2
        rw [← hword, hrw, hlowfix pr.1 hp1]
        exact hp1
      · rcases List.mem_filterMap.mp hfail with ⟨pr, hpr, h2⟩
        cases hs : pr.2 with
        | some rec =>
          rw [hs] at h2
          simp at h2
        | none =>
          rw [hs] at h2
          simp only [Option.isSome_none, Bool.false_eq_true, if_false,
            Option.some.injEq] at h2
          have hp1 : pr.1 ∈ jsSetDedup (words.map jsToLower) := by
            rw [← hkeys]
            exact List.mem_map.mpr ⟨pr, hpr, rfl⟩
          rw [← h2]
          exact hp1
  · rintro ⟨⟨rec, hrec, hword⟩, hfail⟩
    rcases List.mem_filterMap.mp hrec with ⟨pr, hpr, h2⟩
    rcases List.mem_filterMap.mp hfail with ⟨qr, hqr, h3⟩
    cases hqs : qr.2 with
    | some _ =>
      rw [hqs] at h3
      simp at h3
    | none =>
      rw [hqs] at h3
      simp only [Option.isSome_none, Bool.false_eq_true, if_false,
        Option.some.injEq] at h3
      have hp1 : pr.1 ∈ jsSetDedup (words.map jsToLower) := by
        rw [← hkeys]
        exact List.mem_map.mpr ⟨pr, hpr, rfl⟩
      have hpr1 : pr.1 = w := by
        have hrw := hres pr hpr rec h2
        rw [← hword, hrw, hlowfix pr.1 hp1]
      obtain ⟨p1, p2⟩ := pr
      obtain ⟨q1, q2⟩ := qr
      simp only at h2 h3 hpr1 hqs
      rw [hpr1, h2] at hpr
      rw [h3, hqs] at hqr
      have := assoc_unique _ w (some rec) none hnd hpr hqr
      cases this

/-- Witness for C9 at a concrete batch with a repeated, differently-cased
word. -/
theorem claim9_witness :
    "cat" ∈ jsSetDedup ((["Cat", "dog", "cat"]).map jsToLower) ↔
      ((∃ rec ∈ (addOrUpdateWordsConcurrently (fun _ => false) (Store.mk [] 0) 0
            ["Cat", "dog", "cat"]).1.1, rec.word = "cat")
        ∨ "cat" ∈ (addOrUpdateWordsConcurrently (fun _ => false) (Store.mk [] 0) 0
            ["Cat", "dog", "cat"]).1.2) :=
  (claim9_partition ["Cat", "dog", "cat"] (fun _ => false) (Store.mk [] 0) 0
    "cat"
    ⟨fun r hr => absurd hr (List.not_mem_nil r),
     fun r hr => absurd hr (List.not_mem_nil r)⟩).1

/-- C10.  When tokenization yields no valid word, the submission performs no
store operation at all: the store is returned untouched and no
success/failure outcome is produced. -/
theorem claim10_no_store_call (inputText : String) (fails : String → Bool)
    (store : Store) (now : ℤ) (h : extractWords inputText = []) :
    processWords inputText fails store now = (none, store) := by
  simp only [processWords]
  by_cases ht : jsTrim inputText = ""
  · rw [if_pos ht]
  · rw [if_neg ht, h, if_pos rfl]

/-- Witness for C10: digits, punctuation and a single letter produce no
valid word and leave the store untouched. -/
theorem claim10_witness :
    processWords "a 1 ?!" (fun _ => false) (Store.mk [] 0) 0
      = (none, Store.mk [] 0) :=
  claim10_no_store_call "a 1 ?!" (fun _ => false) (Store.mk [] 0) 0 (by decide)

end WordFreq
